import Mathlib

/-!
Verification of the core of the `rabu` (Rust Audio Basics Utilities) crate:
the typed units (`Frequency`, `SampleRate`, `Seconds`, `Samples`), the
biquad filter (`src/biquad.rs`) and the generic multi-channel sample
buffer (`src/buffer.rs`).

The Rust code is shallowly embedded: `f64` scalars become real numbers,
the saturating `as` casts between floats and fixed-width integers are
modelled explicitly by clamping, generic buffer elements become a type
with `Inhabited` (Rust `Default`) and `DecidableEq` (Rust `PartialEq`),
and Rust panics (`panic!`, failed slice bounds checks, `assert_eq!`)
become `Option.none`.
-/

namespace Rabu

/-! ## Units (`src/units/*.rs`) -/

/-- Embeds `Frequency` (`units/frequency.rs`): a newtype over `f64`. -/
structure Frequency where
  val : ℝ

/-- Embeds `Frequency::as_f64`. -/
def Frequency.as_f64 (f : Frequency) : ℝ := f.val

/-- Embeds `SampleRate` (`units/sample_rate.rs`): a newtype over `Frequency`. -/
structure SampleRate where
  freq : Frequency

/-- Embeds `SampleRate::as_f64`, which returns `self.0.as_f64()`. -/
def SampleRate.as_f64 (sr : SampleRate) : ℝ := sr.freq.as_f64

/-- Rust saturating cast `f64 as u32`: truncates toward zero, negative
values clamp to `0`, values above `u32::MAX` clamp to `u32::MAX`.
`Nat.floor` already sends negative reals to `0`. -/
noncomputable def f64_as_u32 (x : ℝ) : ℕ := min (2 ^ 32 - 1) ⌊x⌋₊

/-- Embeds `SampleRate::as_u32`, which is `self.as_f64() as u32`. -/
noncomputable def SampleRate.as_u32 (sr : SampleRate) : ℕ := f64_as_u32 sr.as_f64

/-- Embeds the raw-value accessor `sr.value()` used by `Samples::to_seconds`:
the underlying `f64` sample-rate value. -/
def SampleRate.value (sr : SampleRate) : ℝ := sr.freq.val

/-- Embeds `Samples` (`units/samples.rs`): a newtype over `u64`. -/
structure Samples where
  val : ℕ
  deriving DecidableEq

/-- Embeds `Samples::as_u64`. -/
def Samples.as_u64 (n : Samples) : ℕ := n.val

/-- Embeds `Seconds` (`units/seconds.rs`): a newtype over `f64`. -/
structure Seconds where
  val : ℝ

/-- Embeds `Seconds::as_f64`. -/
def Seconds.as_f64 (s : Seconds) : ℝ := s.val

/-- Rust `f64::round`: rounds to the nearest integer, half-way cases
away from zero. -/
noncomputable def f64_round (x : ℝ) : ℤ :=
  if 0 ≤ x then ⌊x + 1 / 2⌋ else ⌈x - 1 / 2⌉

/-- Rust saturating cast `f64 as u64` applied to an integral value:
negative values clamp to `0`, values above `u64::MAX` clamp to
`u64::MAX`. `Int.toNat` already sends negative integers to `0`. -/
def int_as_u64 (x : ℤ) : ℕ := min (2 ^ 64 - 1) x.toNat

/-- Embeds `Seconds::to_samples`:
`Samples::from((self.as_f64() * sr.as_u32() as f64).round() as u64)`. -/
noncomputable def Seconds.to_samples (s : Seconds) (sr : SampleRate) : Samples :=
  ⟨int_as_u64 (f64_round (s.as_f64 * (sr.as_u32 : ℝ)))⟩

/-- Embeds `Samples::to_seconds`:
`Seconds::from(self.as_u64() as f64 / sr.value() as f64)`. -/
noncomputable def Samples.to_seconds (n : Samples) (sr : SampleRate) : Seconds :=
  ⟨(n.as_u64 : ℝ) / sr.value⟩

/-! ## Biquad filter (`src/biquad.rs`)

The five coefficients and the four state scalars are `f64` in Rust; the
recurrence in `process` only uses ring operations, so the filter is
embedded generically over a commutative ring (instantiated at `ℝ` by the
coefficient-design functions, and at `ℤ`/`ℚ` for concrete evaluation). -/

/-- Embeds `BiquadCoefficients`. -/
structure BiquadCoefficients (α : Type) where
  a1 : α
  a2 : α
  b0 : α
  b1 : α
  b2 : α
  deriving DecidableEq

/-- Embeds `BiquadFilter`: coefficients plus the four state scalars. -/
structure BiquadFilter (α : Type) where
  coefficients : BiquadCoefficients α
  x1 : α
  x2 : α
  y1 : α
  y2 : α
  deriving DecidableEq

/-- Embeds `BiquadFilter::new`: stores the coefficients and zeroes the state. -/
def BiquadFilter.new {α : Type} [CommRing α] (coefficients : BiquadCoefficients α) :
    BiquadFilter α :=
  { coefficients := coefficients, x1 := 0, x2 := 0, y1 := 0, y2 := 0 }

/-- Embeds `BiquadFilter::set_coefficients`: replaces the coefficients in place. -/
def BiquadFilter.set_coefficients {α : Type} (filt : BiquadFilter α)
    (coefficients : BiquadCoefficients α) : BiquadFilter α :=
  { filt with coefficients := coefficients }

/-- Embeds `BiquadFilter::process`. Rust mutates `&mut self` and returns the
output sample; here the output is paired with the updated filter. -/
def BiquadFilter.process {α : Type} [CommRing α] (filt : BiquadFilter α) (input : α) :
    α × BiquadFilter α :=
  let output := filt.coefficients.b0 * input
    + filt.coefficients.b1 * filt.x1
    + filt.coefficients.b2 * filt.x2
    - filt.coefficients.a1 * filt.y1
    - filt.coefficients.a2 * filt.y2
  (output, { filt with x2 := filt.x1, x1 := input, y2 := filt.y1, y1 := output })

/-- Embeds `low_pass_coefficients`, following the source line by line. -/
noncomputable def low_pass_coefficients (sample_rate : SampleRate)
    (cutoff_frequency : Frequency) : BiquadCoefficients ℝ :=
  let w0 := 2 * Real.pi * cutoff_frequency.as_f64 / sample_rate.as_f64
  let cos_w0 := Real.cos w0
  let sin_w0 := Real.sin w0
  let alpha := sin_w0 / (2 * 0.5)
  let b0 := (1 - cos_w0) / 2
  let b1 := 1 - cos_w0
  let b2 := (1 - cos_w0) / 2
  let a0 := 1 + alpha
  let a1 := -2 * cos_w0
  let a2 := 1 - alpha
  { b0 := b0 / a0, b1 := b1 / a0, b2 := b2 / a0, a1 := a1 / a0, a2 := a2 / a0 }

/-- Embeds `band_pass_coefficients`, following the source line by line. -/
noncomputable def band_pass_coefficients (sample_rate : SampleRate)
    (center_frequency : Frequency) (bandwidth : ℝ) : BiquadCoefficients ℝ :=
  let w0 := 2 * Real.pi * center_frequency.as_f64 / sample_rate.as_f64
  let cos_w0 := Real.cos w0
  let sin_w0 := Real.sin w0
  let alpha := sin_w0 * Real.sqrt 2 / 2 * bandwidth / center_frequency.as_f64
  let b0 := sin_w0 / 2
  let b1 := 0
  let b2 := -sin_w0 / 2
  let a0 := 1 + alpha
  let a1 := -2 * cos_w0
  let a2 := 1 - alpha
  { b0 := b0 / a0, b1 := b1 / a0, b2 := b2 / a0, a1 := a1 / a0, a2 := a2 / a0 }

/-- Embeds `high_pass_coefficients`, following the source line by line. -/
noncomputable def high_pass_coefficients (sample_rate : SampleRate)
    (cutoff_frequency : Frequency) : BiquadCoefficients ℝ :=
  let w0 := 2 * Real.pi * cutoff_frequency.as_f64 / sample_rate.as_f64
  let cos_w0 := Real.cos w0
  let sin_w0 := Real.sin w0
  let alpha := sin_w0 / (2 * 0.5)
  let b0 := (1 + cos_w0) / 2
  let b1 := -(1 + cos_w0)
  let b2 := (1 + cos_w0) / 2
  let a0 := 1 + alpha
  let a1 := -2 * cos_w0
  let a2 := 1 - alpha
  { b0 := b0 / a0, b1 := b1 / a0, b2 := b2 / a0, a1 := a1 / a0, a2 := a2 / a0 }

/-! Spec-side coefficient formulas, written from the specification's table
in §4.2 (each table row divided by `a0 = 1 + alpha`), to be compared with
the embedded source functions. -/

/-- Spec formula: angular frequency `w0 = 2π · f / sampleRate`. -/
noncomputable def specW0 (sr : SampleRate) (f : Frequency) : ℝ :=
  2 * Real.pi * f.val / sr.freq.val

/-- Spec formula: low-pass/high-pass damping `alpha = sin(w0) / (2 · 0.5)`. -/
noncomputable def specAlphaLowHigh (sr : SampleRate) (f : Frequency) : ℝ :=
  Real.sin (specW0 sr f) / (2 * 0.5)

/-- Spec formula: band-pass damping
`alpha = sin(w0) · √2/2 · bandwidth / centerFrequency`. -/
noncomputable def specAlphaBand (sr : SampleRate) (f : Frequency) (bw : ℝ) : ℝ :=
  Real.sin (specW0 sr f) * Real.sqrt 2 / 2 * bw / f.val

/-- Spec table row for the low-pass filter, every term divided by `1 + alpha`. -/
noncomputable def specLowPass (sr : SampleRate) (f : Frequency) : BiquadCoefficients ℝ :=
  let w0 := specW0 sr f
  let alpha := specAlphaLowHigh sr f
  { b0 := ((1 - Real.cos w0) / 2) / (1 + alpha)
    b1 := (1 - Real.cos w0) / (1 + alpha)
    b2 := ((1 - Real.cos w0) / 2) / (1 + alpha)
    a1 := (-2 * Real.cos w0) / (1 + alpha)
    a2 := (1 - alpha) / (1 + alpha) }

/-- Spec table row for the high-pass filter, every term divided by `1 + alpha`. -/
noncomputable def specHighPass (sr : SampleRate) (f : Frequency) : BiquadCoefficients ℝ :=
  let w0 := specW0 sr f
  let alpha := specAlphaLowHigh sr f
  { b0 := ((1 + Real.cos w0) / 2) / (1 + alpha)
    b1 := (-(1 + Real.cos w0)) / (1 + alpha)
    b2 := ((1 + Real.cos w0) / 2) / (1 + alpha)
    a1 := (-2 * Real.cos w0) / (1 + alpha)
    a2 := (1 - alpha) / (1 + alpha) }

/-- Spec table row for the band-pass filter, every term divided by `1 + alpha`. -/
noncomputable def specBandPass (sr : SampleRate) (f : Frequency) (bw : ℝ) :
    BiquadCoefficients ℝ :=
  let w0 := specW0 sr f
  let alpha := specAlphaBand sr f bw
  { b0 := (Real.sin w0 / 2) / (1 + alpha)
    b1 := 0 / (1 + alpha)
    b2 := (-Real.sin w0 / 2) / (1 + alpha)
    a1 := (-2 * Real.cos w0) / (1 + alpha)
    a2 := (1 - alpha) / (1 + alpha) }

/-! ## Sample buffer (`src/buffer.rs`)

`Buffer<T>` stores all channels one after the other in a flat `Vec<T>`;
`num_channels` wraps a `u32` and `num_samples` a `u64`, both only ever
used through `as_usize`, so they are embedded as plain naturals. Rust
panics (the explicit `panic!()` on an out-of-range channel index, failed
slice bounds checks, and the `assert_eq!` shape guards in `copy_into`)
are modelled as `Option.none`. -/

/-- Embeds `Buffer<T>`. -/
structure Buffer (T : Type) where
  data : List T
  num_channels : ℕ
  num_samples : ℕ
  deriving DecidableEq

variable {T : Type}

/-- Data-model invariant (§3 of the spec, maintained by every constructor):
the flat store holds exactly `num_channels × num_samples` elements. -/
def Buffer.WF (b : Buffer T) : Prop :=
  b.data.length = b.num_channels * b.num_samples

/-- Embeds `Buffer::is_default_filled`: every stored element equals the
element type's default value. -/
def Buffer.is_default_filled [Inhabited T] [DecidableEq T] (b : Buffer T) : Bool :=
  b.data.all (fun s => s = (default : T))

/-- Embeds `Buffer::allocate`: `num_samples * num_channels` elements, all
set to the default value. -/
def Buffer.allocate [Inhabited T] (num_channels num_samples : ℕ) : Buffer T :=
  { data := List.replicate (num_samples * num_channels) (default : T)
    num_channels := num_channels
    num_samples := num_samples }

/-- Embeds `Buffer::chan`: panics (`none`) if the channel index is out of
range, otherwise returns the slice `data[index*num_samples .. +num_samples]`
(whose bounds check can itself panic on an ill-formed buffer). -/
def Buffer.chan (b : Buffer T) (index : ℕ) : Option (List T) :=
  if b.num_channels ≤ index then none
  else
    let start := index * b.num_samples
    if b.data.length < start + b.num_samples then none
    else some ((b.data.drop start).take b.num_samples)

/-- Embeds `Buffer::chan_mut`, which performs exactly the same index
computation and checks as `chan` before handing out the mutable slice. -/
def Buffer.chan_mut (b : Buffer T) (index : ℕ) : Option (List T) :=
  if b.num_channels ≤ index then none
  else
    let start := index * b.num_samples
    if b.data.length < start + b.num_samples then none
    else some ((b.data.drop start).take b.num_samples)

/-- Embeds the read `self.chan(channel)[sample]`: the `chan` call can panic,
and so can the slice index. -/
def Buffer.chan_read (b : Buffer T) (index sample : ℕ) : Option T :=
  (b.chan index).bind (fun sl => sl[sample]?)

/-- Embeds the write `self.chan_mut(channel)[sample] = v`: the `chan_mut`
call can panic, and so can the slice index; on success the single flat
position `channel * num_samples + sample` is overwritten. -/
def Buffer.chan_write (b : Buffer T) (index sample : ℕ) (v : T) : Option (Buffer T) :=
  if b.num_channels ≤ index then none
  else if b.data.length < index * b.num_samples + b.num_samples then none
  else if b.num_samples ≤ sample then none
  else some { b with data := b.data.set (index * b.num_samples + sample) v }

/-- Embeds the nested copy loops shared by `clone_resized` and `copy_into`:
`for channel in 0..chans { for sample in 0..samps { tgt.chan_mut(channel)[sample]
= <read channel sample> } }`. -/
def Buffer.copyLoop (read : ℕ → ℕ → Option T) (chans samps : ℕ) (tgt : Buffer T) :
    Option (Buffer T) :=
  (List.range chans).foldlM
    (fun tgt channel =>
      (List.range samps).foldlM
        (fun tgt sample => (read channel sample).bind (tgt.chan_write channel sample))
        tgt)
    tgt

/-- Embeds `Buffer::clone_resized`: allocate the new shape, then copy the
overlapping region `min` by `min`. -/
def Buffer.clone_resized [Inhabited T] (b : Buffer T) (num_channels num_samples : ℕ) :
    Option (Buffer T) :=
  Buffer.copyLoop b.chan_read (min b.num_channels num_channels)
    (min b.num_samples num_samples) (Buffer.allocate num_channels num_samples)

/-- Embeds `Buffer::copy_into`: the two `assert_eq!` shape guards panic
(`none`) on mismatch, then every element is copied elementwise. -/
def Buffer.copy_into (b : Buffer T) (dest : Buffer T) : Option (Buffer T) :=
  if b.num_channels ≠ dest.num_channels then none
  else if b.num_samples ≠ dest.num_samples then none
  else Buffer.copyLoop b.chan_read b.num_channels b.num_samples dest

/-- Embeds `InterleavedIterator<T>`: a borrowed buffer plus a flat index. -/
structure InterleavedIterator (T : Type) where
  buffer : Buffer T
  index : ℕ

/-- Embeds `Buffer::iter_interleaved`: an interleaved iterator starting at 0. -/
def Buffer.iter_interleaved (b : Buffer T) : InterleavedIterator T :=
  { buffer := b, index := 0 }

/-- Embeds `InterleavedIterator::next`, following the source: the exhaustion
check `index >= total_num_samples` comes first, and only in the other branch
are the division and the `chan(...)[...]` lookup (whose panic on an
ill-formed buffer is modelled as `none`) evaluated. -/
def InterleavedIterator.next (it : InterleavedIterator T) :
    Option (T × InterleavedIterator T) :=
  let num_channels := it.buffer.num_channels
  let num_samples := it.buffer.num_samples
  let total_num_samples := num_samples * num_channels
  if total_num_samples ≤ it.index then none
  else
    let sample_index := it.index / num_channels
    let channel_index := it.index - sample_index * num_channels
    (it.buffer.chan_read channel_index sample_index).map
      (fun v => (v, { it with index := it.index + 1 }))

/-- Collects the first `fuel` elements yielded by an interleaved iterator. -/
def InterleavedIterator.collect : ℕ → InterleavedIterator T → List T
  | 0, _ => []
  | fuel + 1, it =>
    match it.next with
    | none => []
    | some (v, it2) => v :: InterleavedIterator.collect fuel it2

/-- Spec-side interleaved sequence, written from the specification's words:
for frame `f` from 0 to `frame_count-1`, for channel `c` from 0 to
`channel_count-1`, yield `channel(c)[f]`. -/
def interleavedSpec [Inhabited T] (b : Buffer T) : List T :=
  (List.range b.num_samples).flatMap
    (fun f => (List.range b.num_channels).map
      (fun c => (b.chan_read c f).getD default))

/-! ### Helper lemmas about the flat channel-major layout -/

theorem flat_index_lt {c s nc ns : ℕ} (hc : c < nc) (hs : s < ns) :
    c * ns + s < nc * ns := by
  have h1 : c * ns + s < (c + 1) * ns := by rw [Nat.succ_mul]; omega
  have h2 : (c + 1) * ns ≤ nc * ns := Nat.mul_le_mul_right ns hc
  omega

theorem flat_div {c n s : ℕ} (hs : s < n) : (c * n + s) / n = c := by
  rw [Nat.mul_comm, Nat.mul_add_div (by omega), Nat.div_eq_of_lt hs]
  omega

theorem flat_index_inj {c c2 s s2 n : ℕ} (hs : s < n) (hs2 : s2 < n)
    (h : c * n + s = c2 * n + s2) : c = c2 ∧ s = s2 := by
  have hc : c = c2 := by
    have e1 := flat_div (c := c) hs
    have e2 := flat_div (c := c2) hs2
    rw [h, e2] at e1
    omega
  subst hc
  exact ⟨rfl, by omega⟩

theorem Buffer.chan_some {b : Buffer T} {i : ℕ} (hWF : b.WF) (hi : i < b.num_channels) :
    b.chan i = some ((b.data.drop (i * b.num_samples)).take b.num_samples) := by
  have hlen : i * b.num_samples + b.num_samples ≤ b.data.length := by
    rw [hWF]
    have : (i + 1) * b.num_samples ≤ b.num_channels * b.num_samples :=
      Nat.mul_le_mul_right _ hi
    rw [Nat.succ_mul] at this
    omega
  simp only [Buffer.chan]
  rw [if_neg (by omega), if_neg (by omega)]

theorem Buffer.chan_read_eq {b : Buffer T} {c s : ℕ} (hWF : b.WF)
    (hc : c < b.num_channels) (hs : s < b.num_samples) :
    b.chan_read c s = b.data[c * b.num_samples + s]? := by
  rw [Buffer.chan_read, Buffer.chan_some hWF hc, Option.some_bind]
  rw [List.getElem?_take, if_pos hs, List.getElem?_drop]

theorem Buffer.chan_read_isSome {b : Buffer T} {c s : ℕ} (hWF : b.WF)
    (hc : c < b.num_channels) (hs : s < b.num_samples) :
    (b.chan_read c s).isSome := by
  rw [Buffer.chan_read_eq hWF hc hs]
  have : c * b.num_samples + s < b.data.length := by
    rw [hWF]; exact flat_index_lt hc hs
  simp [List.getElem?_eq_getElem this]

theorem Buffer.chan_write_some {b : Buffer T} {c s : ℕ} (v : T) (hWF : b.WF)
    (hc : c < b.num_channels) (hs : s < b.num_samples) :
    b.chan_write c s v =
      some { b with data := b.data.set (c * b.num_samples + s) v } := by
  have hlen : c * b.num_samples + b.num_samples ≤ b.data.length := by
    rw [hWF]
    have : (c + 1) * b.num_samples ≤ b.num_channels * b.num_samples :=
      Nat.mul_le_mul_right _ hc
    rw [Nat.succ_mul] at this
    omega
  simp only [Buffer.chan_write]
  rw [if_neg (by omega), if_neg (by omega), if_neg (by omega)]

/-- One pass of the inner copy loop over `sample in 0..S` at a fixed channel:
it succeeds, preserves the shape, and overwrites exactly the first `S`
samples of that channel with the read values. -/
theorem innerLoop_spec (read1 : ℕ → Option T) (tgt : Buffer T) (ch : ℕ) (S : ℕ)
    (hWF : tgt.WF) (hch : ch < tgt.num_channels) (hS : S ≤ tgt.num_samples)
    (hread : ∀ s < S, (read1 s).isSome) :
    ∃ r, (List.range S).foldlM
        (fun t s => (read1 s).bind (t.chan_write ch s)) tgt = some r
      ∧ r.num_channels = tgt.num_channels ∧ r.num_samples = tgt.num_samples ∧ r.WF
      ∧ ∀ c s, c < tgt.num_channels → s < tgt.num_samples →
          r.data[c * tgt.num_samples + s]? =
            if c = ch ∧ s < S then read1 s else tgt.data[c * tgt.num_samples + s]? := by
  induction S with
  | zero =>
    refine ⟨tgt, rfl, rfl, rfl, hWF, ?_⟩
    intro c s _ _
    rw [if_neg (by omega)]
  | succ S ih =>
    obtain ⟨rS, hfold, hnc, hns, hrWF, hchar⟩ :=
      ih (by omega) (fun s hs => hread s (by omega))
    obtain ⟨v, hv⟩ := Option.isSome_iff_exists.mp (hread S (by omega))
    have hwrite :=
      Buffer.chan_write_some (b := rS) (c := ch) (s := S) v hrWF
        (by omega) (by omega)
    refine ⟨{ rS with data := rS.data.set (ch * rS.num_samples + S) v },
      ?_, hnc, hns, ?_, ?_⟩
    · rw [List.range_succ, List.foldlM_append, hfold]
      simp only [Option.bind_eq_bind, Option.some_bind, List.foldlM_cons, List.foldlM_nil,
        hv, hwrite, Option.pure_def]
    · simpa [Buffer.WF, List.length_set] using hrWF
    · intro c s hcb hsb
      show (rS.data.set (ch * rS.num_samples + S) v)[c * tgt.num_samples + s]? = _
      rw [hns]
      by_cases hc : c = ch
      · subst hc
        by_cases hsS : s = S
        · subst hsS
          have hlen : rS.data.length = rS.num_channels * rS.num_samples := hrWF
          have hlt : c * tgt.num_samples + s < rS.data.length := by
            rw [hlen, hnc, hns]
            exact flat_index_lt hcb hsb
          rw [if_pos ⟨rfl, by omega⟩, hv]
          simp [List.getElem?_set_self, hlt]
        · have hne : c * tgt.num_samples + S ≠ c * tgt.num_samples + s := by
            intro h
            exact hsS (flat_index_inj (by omega) hsb h).2.symm
          rw [List.getElem?_set_ne hne, hchar c s hcb hsb]
          by_cases hslt : s < S
          · rw [if_pos ⟨rfl, hslt⟩, if_pos ⟨rfl, by omega⟩]
          · rw [if_neg (by omega), if_neg (by omega)]
      · have hne : ch * tgt.num_samples + S ≠ c * tgt.num_samples + s := by
          intro h
          exact hc (flat_index_inj (by omega) hsb h).1.symm
        rw [List.getElem?_set_ne hne, hchar c s hcb hsb,
          if_neg (by omega), if_neg (by omega)]

/-- The nested copy loop over `channel in 0..C`, `sample in 0..S` succeeds,
preserves the shape, and overwrites exactly the `C × S` region with the read
values, leaving every other position of the target untouched. -/
theorem copyLoop_spec (read : ℕ → ℕ → Option T) (C S : ℕ) (tgt : Buffer T)
    (hWF : tgt.WF) (hC : C ≤ tgt.num_channels) (hS : S ≤ tgt.num_samples)
    (hread : ∀ c < C, ∀ s < S, (read c s).isSome) :
    ∃ r, Buffer.copyLoop read C S tgt = some r
      ∧ r.num_channels = tgt.num_channels ∧ r.num_samples = tgt.num_samples ∧ r.WF
      ∧ ∀ c s, c < tgt.num_channels → s < tgt.num_samples →
          r.data[c * tgt.num_samples + s]? =
            if c < C ∧ s < S then read c s else tgt.data[c * tgt.num_samples + s]? := by
  induction C with
  | zero =>
    refine ⟨tgt, rfl, rfl, rfl, hWF, ?_⟩
    intro c s _ _
    rw [if_neg (by omega)]
  | succ C ih =>
    obtain ⟨rC, hfold, hnc, hns, hrWF, hchar⟩ :=
      ih (by omega) (fun c hc s hs => hread c (by omega) s hs)
    obtain ⟨r, hinner, hnc2, hns2, hrWF2, hchar2⟩ :=
      innerLoop_spec (read C) rC C S hrWF (by omega) (by omega)
        (fun s hs => hread C (by omega) s hs)
    refine ⟨r, ?_, by omega, by omega, hrWF2, ?_⟩
    · rw [Buffer.copyLoop, List.range_succ, List.foldlM_append]
      rw [Buffer.copyLoop] at hfold
      rw [hfold]
      simp only [Option.bind_eq_bind, Option.some_bind, List.foldlM_cons, List.foldlM_nil,
        Option.pure_def]
      rw [hinner]
      rfl
    · intro c s hcb hsb
      have h2 := hchar2 c s (by omega) (by omega)
      rw [hns] at h2
      rw [h2, hchar c s hcb hsb]
      by_cases hc : c = C
      · subst hc
        by_cases hsS : s < S
        · rw [if_pos ⟨rfl, hsS⟩, if_pos ⟨by omega, hsS⟩]
        · rw [if_neg (by omega), if_neg (by omega), if_neg (by omega)]
      · by_cases hcC : c < C
        · rw [if_neg (by omega)]
          by_cases hsS : s < S
          · rw [if_pos ⟨hcC, hsS⟩, if_pos ⟨by omega, hsS⟩]
          · rw [if_neg (by omega), if_neg (by omega)]
        · rw [if_neg (by omega), if_neg (by omega), if_neg (by omega)]

theorem Buffer.chan_mut_eq_chan (b : Buffer T) (i : ℕ) : b.chan_mut i = b.chan i := rfl

theorem flat_mod {c n s : ℕ} (hs : s < n) : (c * n + s) % n = s := by
  rw [Nat.mul_comm, Nat.mul_add_mod, Nat.mod_eq_of_lt hs]

theorem idx_sub_eq_mod (i nc : ℕ) : i - i / nc * nc = i % nc := by
  conv_rhs => rw [Nat.mod_def]
  rw [Nat.mul_comm]

theorem Buffer.allocate_WF [Inhabited T] (c f : ℕ) :
    (Buffer.allocate (T := T) c f).WF := by
  simp [Buffer.WF, Buffer.allocate, Nat.mul_comm]

theorem Buffer.allocate_getElem [Inhabited T] {c f i : ℕ} (hi : i < c * f) :
    (Buffer.allocate (T := T) c f).data[i]? = some default := by
  simp only [Buffer.allocate, List.getElem?_replicate]
  rw [if_pos (by rw [Nat.mul_comm]; exact hi)]

/-! ### Helper lemmas about the interleaved iterator -/

theorem iter_next_of_exhausted {b : Buffer T} {i : ℕ}
    (h : b.num_samples * b.num_channels ≤ i) :
    (InterleavedIterator.mk b i).next = none := by
  simp only [InterleavedIterator.next]
  rw [if_pos h]

theorem iter_next_of_lt [Inhabited T] {b : Buffer T} {i : ℕ} (hWF : b.WF)
    (h : i < b.num_samples * b.num_channels) :
    ∃ v, b.chan_read (i % b.num_channels) (i / b.num_channels) = some v
      ∧ (InterleavedIterator.mk b i).next = some (v, ⟨b, i + 1⟩) := by
  have hnc : 0 < b.num_channels := by
    rcases Nat.eq_zero_or_pos b.num_channels with h0 | h0
    · rw [h0, Nat.mul_zero] at h
      omega
    · exact h0
  have hsamp : i / b.num_channels < b.num_samples :=
    Nat.div_lt_of_lt_mul (by rw [Nat.mul_comm]; exact h)
  have hchan : i % b.num_channels < b.num_channels := Nat.mod_lt _ hnc
  obtain ⟨v, hv⟩ :=
    Option.isSome_iff_exists.mp (Buffer.chan_read_isSome hWF hchan hsamp)
  refine ⟨v, hv, ?_⟩
  simp only [InterleavedIterator.next]
  rw [if_neg (by omega), idx_sub_eq_mod, hv]
  rfl

/-- Running the iterator from flat index `i` with exactly the remaining fuel
produces the reads at flat indices `i, i+1, …, total-1`. -/
theorem iter_collect_eq [Inhabited T] {b : Buffer T} (hWF : b.WF) :
    ∀ (n i : ℕ), i + n = b.num_samples * b.num_channels →
      InterleavedIterator.collect n ⟨b, i⟩ =
        (List.range' i n).map
          (fun j => (b.chan_read (j % b.num_channels) (j / b.num_channels)).getD default) := by
  intro n
  induction n with
  | zero => intro i _; rfl
  | succ n ih =>
    intro i hi
    obtain ⟨v, hv, hnext⟩ := iter_next_of_lt hWF (i := i) (by omega)
    rw [List.range'_succ]
    simp only [InterleavedIterator.collect, hnext, List.map_cons, hv, Option.getD_some]
    rw [ih (i + 1) (by omega)]

/-- Reindexing from the flat interleaved order to frame-outer, channel-inner
nested order. -/
theorem range_mul_interleave {β : Type} (g : ℕ → ℕ → β) (nc : ℕ) :
    ∀ m : ℕ, (List.range (m * nc)).map (fun j => g (j % nc) (j / nc)) =
      (List.range m).flatMap (fun f => (List.range nc).map (fun c => g c f)) := by
  intro m
  induction m with
  | zero => simp
  | succ m ih =>
    rw [Nat.succ_mul, List.range_add, List.map_append, ih, List.range_succ,
      List.flatMap_append, List.flatMap_cons, List.flatMap_nil, List.append_nil]
    congr 1
    rw [List.map_map]
    refine List.map_congr_left ?_
    intro c hc
    have hcn : c < nc := List.mem_range.mp hc
    simp only [Function.comp_apply]
    rw [flat_mod hcn, flat_div hcn]

end Rabu

namespace Rabu

/-- C1: `process` evaluates the direct-form-I recurrence
`output = b0·input + b1·x1 + b2·x2 − a1·y1 − a2·y2`, shifts the state
`x2 ← x1; x1 ← input; y2 ← y1; y1 ← output`, and changes nothing else
(in particular the coefficients are untouched). -/
theorem biquad_process_recurrence_and_state_shift {α : Type} [CommRing α]
    (filt : BiquadFilter α) (input : α) :
    (filt.process input).1 =
        filt.coefficients.b0 * input + filt.coefficients.b1 * filt.x1
          + filt.coefficients.b2 * filt.x2 - filt.coefficients.a1 * filt.y1
          - filt.coefficients.a2 * filt.y2
      ∧ (filt.process input).2.x2 = filt.x1
      ∧ (filt.process input).2.x1 = input
      ∧ (filt.process input).2.y2 = filt.y1
      ∧ (filt.process input).2.y1 = (filt.process input).1
      ∧ (filt.process input).2.coefficients = filt.coefficients :=
  ⟨rfl, rfl, rfl, rfl, rfl, rfl⟩

/-- C7: `set_coefficients` replaces only the coefficients: the four state
scalars are exactly unchanged, and the next `process` call therefore uses
the new coefficients with the old input/output history. -/
theorem biquad_set_coefficients_preserves_state {α : Type} [CommRing α]
    (filt : BiquadFilter α) (c : BiquadCoefficients α) (input : α) :
    (filt.set_coefficients c).x1 = filt.x1
      ∧ (filt.set_coefficients c).x2 = filt.x2
      ∧ (filt.set_coefficients c).y1 = filt.y1
      ∧ (filt.set_coefficients c).y2 = filt.y2
      ∧ (filt.set_coefficients c).coefficients = c
      ∧ ((filt.set_coefficients c).process input).1 =
          c.b0 * input + c.b1 * filt.x1 + c.b2 * filt.x2
            - c.a1 * filt.y1 - c.a2 * filt.y2 :=
  ⟨rfl, rfl, rfl, rfl, rfl, rfl⟩

/-- C2: each coefficient-design function computes `w0 = 2π·f/sr` and returns
exactly its spec table row divided by `a0 = 1 + alpha`, with
`alpha = sin(w0)/(2·0.5)` for low-pass and high-pass and
`alpha = sin(w0)·√2/2·bandwidth/centerFrequency` for band-pass. -/
theorem coefficient_design_matches_spec_table (sr : SampleRate) (f : Frequency) (bw : ℝ) :
    low_pass_coefficients sr f = specLowPass sr f
      ∧ high_pass_coefficients sr f = specHighPass sr f
      ∧ band_pass_coefficients sr f bw = specBandPass sr f bw :=
  ⟨rfl, rfl, rfl⟩

/-- C3: for every channel count `c` and frame count `f`, `allocate c f`
yields a buffer whose data has length exactly `c * f` with every element
equal to the default value, so `is_default_filled` returns `true`. -/
theorem allocate_is_default_filled (T : Type) [Inhabited T] [DecidableEq T] (c f : ℕ) :
    (Buffer.allocate (T := T) c f).data.length = c * f
      ∧ (Buffer.allocate (T := T) c f).is_default_filled = true := by
  constructor
  · simp [Buffer.allocate, Nat.mul_comm]
  · simp [Buffer.is_default_filled, Buffer.allocate, List.all_eq_true]

/-- C4: `clone_resized c2 f2` returns a buffer of shape `(c2, f2)` that keeps
the original value at every channel `< min(c, c2)` and frame `< min(f, f2)`
and holds the default value at every other position. -/
theorem clone_resized_preserves_overlap (T : Type) [Inhabited T] (b : Buffer T)
    (c2 f2 : ℕ) (hWF : b.WF) :
    ∃ r, b.clone_resized c2 f2 = some r
      ∧ r.num_channels = c2 ∧ r.num_samples = f2 ∧ r.WF
      ∧ ∀ c s, c < c2 → s < f2 →
          r.chan_read c s =
            if c < min b.num_channels c2 ∧ s < min b.num_samples f2
            then b.chan_read c s else some default := by
  obtain ⟨r, hloop, hnc, hns, hrWF, hchar⟩ :=
    copyLoop_spec b.chan_read (min b.num_channels c2) (min b.num_samples f2)
      (Buffer.allocate c2 f2) (Buffer.allocate_WF c2 f2)
      (min_le_right _ _) (min_le_right _ _)
      (fun c hc s hs => Buffer.chan_read_isSome hWF (by omega) (by omega))
  have hnc2 : r.num_channels = c2 := hnc
  have hns2 : r.num_samples = f2 := hns
  refine ⟨r, ?_, hnc2, hns2, hrWF, ?_⟩
  · rw [Buffer.clone_resized]
    exact hloop
  · intro c s hc hs
    have hcr := Buffer.chan_read_eq (b := r) (c := c) (s := s) hrWF
      (by rw [hnc2]; exact hc) (by rw [hns2]; exact hs)
    rw [hns2] at hcr
    rw [hcr]
    have h := hchar c s hc hs
    refine h.trans ?_
    by_cases hov : c < min b.num_channels c2 ∧ s < min b.num_samples f2
    · rw [if_pos hov, if_pos hov]
    · rw [if_neg hov, if_neg hov]
      exact Buffer.allocate_getElem (flat_index_lt hc hs)

/-- Witness for C4 at the shape-growing test case from `buffer.rs`. -/
theorem clone_resized_preserves_overlap_witness :
    ∃ r, (Buffer.mk [0, 1, 2, 0, 1, 2] 2 3 : Buffer ℤ).clone_resized 3 4 = some r
      ∧ r.num_channels = 3 ∧ r.num_samples = 4 ∧ r.WF
      ∧ ∀ c s, c < 3 → s < 4 →
          r.chan_read c s =
            if c < min 2 3 ∧ s < min 3 4
            then (Buffer.mk [0, 1, 2, 0, 1, 2] 2 3 : Buffer ℤ).chan_read c s
            else some default :=
  clone_resized_preserves_overlap ℤ (Buffer.mk [0, 1, 2, 0, 1, 2] 2 3) 3 4 rfl

/-- C8: an out-of-range channel index makes `chan`/`chan_mut` abort (modelled
as `none`), a shape mismatch makes `copy_into` abort, and under the
preconditions (index in range, equal shapes) the abort branches are
unreachable and the operations succeed. -/
theorem chan_copy_into_contract (T : Type) [Inhabited T] :
    (∀ (b : Buffer T) (i : ℕ), b.num_channels ≤ i → b.chan i = none ∧ b.chan_mut i = none)
      ∧ (∀ (b dest : Buffer T),
          b.num_channels ≠ dest.num_channels ∨ b.num_samples ≠ dest.num_samples →
          b.copy_into dest = none)
      ∧ (∀ (b : Buffer T) (i : ℕ), b.WF → i < b.num_channels →
          (b.chan i).isSome ∧ (b.chan_mut i).isSome)
      ∧ (∀ (b dest : Buffer T), b.WF → dest.WF →
          b.num_channels = dest.num_channels → b.num_samples = dest.num_samples →
          (b.copy_into dest).isSome) := by
  refine ⟨?_, ?_, ?_, ?_⟩
  · intro b i h
    constructor
    · simp only [Buffer.chan]
      rw [if_pos h]
    · simp only [Buffer.chan_mut]
      rw [if_pos h]
  · intro b dest h
    simp only [Buffer.copy_into]
    by_cases h1 : b.num_channels ≠ dest.num_channels
    · rw [if_pos h1]
    · rw [if_neg h1, if_pos (by tauto)]
  · intro b i hWF hi
    rw [Buffer.chan_mut_eq_chan, Buffer.chan_some hWF hi]
    exact ⟨rfl, rfl⟩
  · intro b dest hWF hdWF hc hs
    obtain ⟨r, hloop, _, _, _, _⟩ :=
      copyLoop_spec b.chan_read b.num_channels b.num_samples dest hdWF
        (le_of_eq hc) (le_of_eq hs)
        (fun c hcl s hsl => Buffer.chan_read_isSome hWF hcl hsl)
    simp only [Buffer.copy_into]
    rw [if_neg (by omega), if_neg (by omega), hloop]
    rfl

/-- Witness for C8: the abort and success branches at concrete buffers. -/
theorem chan_copy_into_contract_witness :
    ((Buffer.mk [0, 0] 1 2 : Buffer ℤ).chan 1 = none
        ∧ (Buffer.mk [0, 0] 1 2 : Buffer ℤ).chan_mut 1 = none)
      ∧ (Buffer.mk [0, 0] 1 2 : Buffer ℤ).copy_into (Buffer.mk [0, 0, 0] 1 3) = none
      ∧ ((Buffer.mk [0, 0] 1 2 : Buffer ℤ).chan 0).isSome
      ∧ ((Buffer.mk [0, 0] 1 2 : Buffer ℤ).copy_into (Buffer.mk [5, 5] 1 2)).isSome :=
  ⟨(chan_copy_into_contract ℤ).1 (Buffer.mk [0, 0] 1 2) 1 (by decide),
    (chan_copy_into_contract ℤ).2.1 (Buffer.mk [0, 0] 1 2) (Buffer.mk [0, 0, 0] 1 3)
      (Or.inr (by decide)),
    ((chan_copy_into_contract ℤ).2.2.1 (Buffer.mk [0, 0] 1 2) 0 rfl (by decide)).1,
    (chan_copy_into_contract ℤ).2.2.2 (Buffer.mk [0, 0] 1 2) (Buffer.mk [5, 5] 1 2)
      rfl rfl rfl rfl⟩

/-- C5: interleaved iteration yields exactly `channel(c)[f]` ordered by frame
`f` outer and channel `c` inner, and on the 2-channel, 3-frame buffer with
channel 0 = `[1,1,1]` and channel 1 = `[0,0,0]` (built by three channel
writes, as in the `interleaved_iterator` test) it yields `[1,0,1,0,1,0]`. -/
theorem interleaved_iteration_order (T : Type) [Inhabited T] (b : Buffer T)
    (_hone : 1 ≤ b.num_channels) (hWF : b.WF) :
    InterleavedIterator.collect (b.num_samples * b.num_channels) b.iter_interleaved
        = interleavedSpec b
      ∧ (((Buffer.allocate (T := ℤ) 2 3).chan_write 0 0 1).bind
            (fun b1 => (b1.chan_write 0 1 1).bind
              (fun b2 => b2.chan_write 0 2 1))).map
          (fun bf => InterleavedIterator.collect 6 bf.iter_interleaved)
        = some [1, 0, 1, 0, 1, 0] := by
  constructor
  · rw [Buffer.iter_interleaved, iter_collect_eq hWF _ 0 (by omega),
      ← List.range_eq_range', interleavedSpec,
      range_mul_interleave (fun c f => (b.chan_read c f).getD default)]
  · decide

/-- Witness for C5 at the 2-channel, 3-frame test buffer. -/
theorem interleaved_iteration_order_witness :
    InterleavedIterator.collect (3 * 2)
        (Buffer.mk [1, 1, 1, 0, 0, 0] 2 3 : Buffer ℤ).iter_interleaved
      = interleavedSpec (Buffer.mk [1, 1, 1, 0, 0, 0] 2 3 : Buffer ℤ) :=
  (interleaved_iteration_order ℤ (Buffer.mk [1, 1, 1, 0, 0, 0] 2 3)
    (by decide) rfl).1

/-- C10: the interleaved iterator is total. The exhaustion check runs before
the division, so whenever `channel_count * frame_count ≤ index` — in
particular on a zero-channel or zero-frame buffer, where the division would
otherwise be by zero or out of range — `next` returns `none`; below that
bound `next` yields one element and advances, so the iterator yields exactly
`channel_count * frame_count` items and then `none` on every further call. -/
theorem interleaved_next_total (T : Type) [Inhabited T] (b : Buffer T) :
    (∀ i, b.num_channels * b.num_samples ≤ i →
        (InterleavedIterator.mk b i).next = none)
      ∧ (b.num_channels = 0 ∨ b.num_samples = 0 →
          ∀ i, (InterleavedIterator.mk b i).next = none)
      ∧ (b.WF → ∀ i, i < b.num_channels * b.num_samples →
          ∃ v, (InterleavedIterator.mk b i).next = some (v, ⟨b, i + 1⟩))
      ∧ (b.WF →
          (InterleavedIterator.collect (b.num_channels * b.num_samples)
              b.iter_interleaved).length = b.num_channels * b.num_samples) := by
  refine ⟨?_, ?_, ?_, ?_⟩
  · intro i h
    exact iter_next_of_exhausted (by rw [Nat.mul_comm]; exact h)
  · intro h i
    refine iter_next_of_exhausted ?_
    rcases h with h | h <;> rw [h] <;> omega
  · intro hWF i hi
    obtain ⟨v, _, hnext⟩ := iter_next_of_lt hWF (i := i) (by rw [Nat.mul_comm]; exact hi)
    exact ⟨v, hnext⟩
  · intro hWF
    rw [Nat.mul_comm, Buffer.iter_interleaved, iter_collect_eq hWF _ 0 (by omega),
      List.length_map, List.length_range']

/-- Counterexample for C6 as stated: at sample rate 10 with the small cutoff
frequency 1/10 Hz (one percent of the sample rate, representative of "cutoff
approaching 0"), the low-pass design yields `b0+b1+b2 < 1/2` and
`1+a1+a2 < 1/2` — both sums approach 0, not 1 and 2. -/
theorem low_pass_dc_sums_counterexample :
    ((low_pass_coefficients (SampleRate.mk (Frequency.mk 10)) (Frequency.mk (1/10))).b0
        + (low_pass_coefficients (SampleRate.mk (Frequency.mk 10)) (Frequency.mk (1/10))).b1
        + (low_pass_coefficients (SampleRate.mk (Frequency.mk 10)) (Frequency.mk (1/10))).b2
        < 1 / 2)
      ∧ (1 + (low_pass_coefficients (SampleRate.mk (Frequency.mk 10)) (Frequency.mk (1/10))).a1
        + (low_pass_coefficients (SampleRate.mk (Frequency.mk 10)) (Frequency.mk (1/10))).a2
        < 1 / 2) := by
  have hw : 2 * Real.pi * (Frequency.mk (1/10)).as_f64 / (SampleRate.mk (Frequency.mk 10)).as_f64
      = Real.pi / 50 := by
    simp only [Frequency.as_f64, SampleRate.as_f64]
    ring
  have hpi_pos : 0 < Real.pi := Real.pi_pos
  have hple4 : Real.pi ≤ 4 := Real.pi_le_four
  have hsin : 0 ≤ Real.sin (Real.pi / 50) :=
    Real.sin_nonneg_of_nonneg_of_le_pi (by positivity) (by nlinarith)
  have hcos_le : Real.cos (Real.pi / 50) ≤ 1 := Real.cos_le_one _
  have hcos_gt : 3 / 4 < Real.cos (Real.pi / 50) := by
    have h := Real.one_sub_sq_div_two_lt_cos (x := Real.pi / 50) (by positivity)
    nlinarith
  have h205 : (2 * 0.5 : ℝ) = 1 := by norm_num
  have ha0 : (0:ℝ) < 1 + Real.sin (Real.pi / 50) := by linarith
  simp only [low_pass_coefficients, hw, h205, div_one]
  constructor
  · have hkey : (1 - Real.cos (Real.pi / 50)) / 2 / (1 + Real.sin (Real.pi / 50))
        + (1 - Real.cos (Real.pi / 50)) / (1 + Real.sin (Real.pi / 50))
        + (1 - Real.cos (Real.pi / 50)) / 2 / (1 + Real.sin (Real.pi / 50))
        = (2 * (1 - Real.cos (Real.pi / 50))) / (1 + Real.sin (Real.pi / 50)) := by
      field_simp
      ring
    rw [hkey]
    have hle : (2 * (1 - Real.cos (Real.pi / 50))) / (1 + Real.sin (Real.pi / 50))
        ≤ 2 * (1 - Real.cos (Real.pi / 50)) :=
      div_le_self (by linarith) (by linarith)
    linarith
  · have hkey : 1 + (-2 * Real.cos (Real.pi / 50)) / (1 + Real.sin (Real.pi / 50))
        + (1 - Real.sin (Real.pi / 50)) / (1 + Real.sin (Real.pi / 50))
        = (2 * (1 - Real.cos (Real.pi / 50))) / (1 + Real.sin (Real.pi / 50)) := by
      field_simp
      ring
    rw [hkey]
    have hle : (2 * (1 - Real.cos (Real.pi / 50))) / (1 + Real.sin (Real.pi / 50))
        ≤ 2 * (1 - Real.cos (Real.pi / 50)) :=
      div_le_self (by linarith) (by linarith)
    linarith

/-- C6 (amended): at sample rate 10, as the cutoff approaches 0 from above,
`b0+b1+b2` and `1+a1+a2` of the low-pass design both tend to 0 (not to 1 and
2 as claimed); they are however exactly equal whenever the normalizer
`a0 = 1 + alpha` is nonzero, so the DC gain is exactly 1: a filter whose
state has settled at a constant `k` (both previous inputs and both previous
outputs equal to `k`) outputs exactly `k` when processing `k`. -/
theorem low_pass_dc_gain :
    Filter.Tendsto (fun f : ℝ =>
        (low_pass_coefficients (SampleRate.mk (Frequency.mk 10)) (Frequency.mk f)).b0
          + (low_pass_coefficients (SampleRate.mk (Frequency.mk 10)) (Frequency.mk f)).b1
          + (low_pass_coefficients (SampleRate.mk (Frequency.mk 10)) (Frequency.mk f)).b2)
        (nhdsWithin 0 (Set.Ioi 0)) (nhds 0)
      ∧ Filter.Tendsto (fun f : ℝ =>
          1 + (low_pass_coefficients (SampleRate.mk (Frequency.mk 10)) (Frequency.mk f)).a1
            + (low_pass_coefficients (SampleRate.mk (Frequency.mk 10)) (Frequency.mk f)).a2)
          (nhdsWithin 0 (Set.Ioi 0)) (nhds 0)
      ∧ ∀ (sr cf k : ℝ),
          1 + Real.sin (2 * Real.pi * cf / sr) / (2 * 0.5) ≠ 0 →
          ((low_pass_coefficients (SampleRate.mk (Frequency.mk sr)) (Frequency.mk cf)).b0
              + (low_pass_coefficients (SampleRate.mk (Frequency.mk sr)) (Frequency.mk cf)).b1
              + (low_pass_coefficients (SampleRate.mk (Frequency.mk sr)) (Frequency.mk cf)).b2
            = 1 + (low_pass_coefficients (SampleRate.mk (Frequency.mk sr)) (Frequency.mk cf)).a1
              + (low_pass_coefficients (SampleRate.mk (Frequency.mk sr)) (Frequency.mk cf)).a2)
          ∧ (BiquadFilter.process
              { coefficients :=
                  low_pass_coefficients (SampleRate.mk (Frequency.mk sr)) (Frequency.mk cf)
                x1 := k, x2 := k, y1 := k, y2 := k } k).1 = k := by
  have hwcont : Continuous fun f : ℝ => 2 * Real.pi * f / 10 :=
    (continuous_const.mul continuous_id).div_const 10
  have hsincont : Continuous fun f : ℝ => Real.sin (2 * Real.pi * f / 10) :=
    Real.continuous_sin.comp hwcont
  have hcoscont : Continuous fun f : ℝ => Real.cos (2 * Real.pi * f / 10) :=
    Real.continuous_cos.comp hwcont
  have hdencont : Continuous fun f : ℝ =>
      1 + Real.sin (2 * Real.pi * f / 10) / (2 * 0.5) :=
    continuous_const.add (hsincont.div_const _)
  have hzero : 2 * Real.pi * (0:ℝ) / 10 = 0 := by ring
  have hdenne : (fun f : ℝ => 1 + Real.sin (2 * Real.pi * f / 10) / (2 * 0.5)) 0 ≠ 0 := by
    simp only [hzero, Real.sin_zero, zero_div, add_zero]
    norm_num
  refine ⟨?_, ?_, ?_⟩
  · have hunfold : (fun f : ℝ =>
        (low_pass_coefficients (SampleRate.mk (Frequency.mk 10)) (Frequency.mk f)).b0
          + (low_pass_coefficients (SampleRate.mk (Frequency.mk 10)) (Frequency.mk f)).b1
          + (low_pass_coefficients (SampleRate.mk (Frequency.mk 10)) (Frequency.mk f)).b2)
        = fun f : ℝ =>
          ((1 - Real.cos (2 * Real.pi * f / 10)) / 2)
              / (1 + Real.sin (2 * Real.pi * f / 10) / (2 * 0.5))
            + (1 - Real.cos (2 * Real.pi * f / 10))
              / (1 + Real.sin (2 * Real.pi * f / 10) / (2 * 0.5))
            + ((1 - Real.cos (2 * Real.pi * f / 10)) / 2)
              / (1 + Real.sin (2 * Real.pi * f / 10) / (2 * 0.5)) := by
      funext f
      simp only [low_pass_coefficients, Frequency.as_f64, SampleRate.as_f64]
    rw [hunfold]
    have hcont : ContinuousAt (fun f : ℝ =>
        ((1 - Real.cos (2 * Real.pi * f / 10)) / 2)
            / (1 + Real.sin (2 * Real.pi * f / 10) / (2 * 0.5))
          + (1 - Real.cos (2 * Real.pi * f / 10))
            / (1 + Real.sin (2 * Real.pi * f / 10) / (2 * 0.5))
          + ((1 - Real.cos (2 * Real.pi * f / 10)) / 2)
            / (1 + Real.sin (2 * Real.pi * f / 10) / (2 * 0.5))) 0 :=
      ((((continuous_const.sub hcoscont).div_const 2).continuousAt.div
            hdencont.continuousAt hdenne).add
          ((continuous_const.sub hcoscont).continuousAt.div
            hdencont.continuousAt hdenne)).add
        (((continuous_const.sub hcoscont).div_const 2).continuousAt.div
          hdencont.continuousAt hdenne)
    have hval : ((1 - Real.cos (2 * Real.pi * (0:ℝ) / 10)) / 2)
            / (1 + Real.sin (2 * Real.pi * (0:ℝ) / 10) / (2 * 0.5))
          + (1 - Real.cos (2 * Real.pi * (0:ℝ) / 10))
            / (1 + Real.sin (2 * Real.pi * (0:ℝ) / 10) / (2 * 0.5))
          + ((1 - Real.cos (2 * Real.pi * (0:ℝ) / 10)) / 2)
            / (1 + Real.sin (2 * Real.pi * (0:ℝ) / 10) / (2 * 0.5)) = 0 := by
      simp only [hzero, Real.sin_zero, Real.cos_zero, zero_div, add_zero, sub_self]
    have ht := hcont.tendsto
    rw [hval] at ht
    exact ht.mono_left nhdsWithin_le_nhds
  · have hunfold : (fun f : ℝ =>
        1 + (low_pass_coefficients (SampleRate.mk (Frequency.mk 10)) (Frequency.mk f)).a1
          + (low_pass_coefficients (SampleRate.mk (Frequency.mk 10)) (Frequency.mk f)).a2)
        = fun f : ℝ =>
          1 + (-2 * Real.cos (2 * Real.pi * f / 10))
              / (1 + Real.sin (2 * Real.pi * f / 10) / (2 * 0.5))
            + (1 - Real.sin (2 * Real.pi * f / 10) / (2 * 0.5))
              / (1 + Real.sin (2 * Real.pi * f / 10) / (2 * 0.5)) := by
      funext f
      simp only [low_pass_coefficients, Frequency.as_f64, SampleRate.as_f64]
    rw [hunfold]
    have hcont : ContinuousAt (fun f : ℝ =>
        1 + (-2 * Real.cos (2 * Real.pi * f / 10))
            / (1 + Real.sin (2 * Real.pi * f / 10) / (2 * 0.5))
          + (1 - Real.sin (2 * Real.pi * f / 10) / (2 * 0.5))
            / (1 + Real.sin (2 * Real.pi * f / 10) / (2 * 0.5))) 0 :=
      ((continuous_const.continuousAt.add
          ((continuous_const.mul hcoscont).continuousAt.div
            hdencont.continuousAt hdenne)).add
        ((continuous_const.sub (hsincont.div_const _)).continuousAt.div
          hdencont.continuousAt hdenne))
    have hval : 1 + (-2 * Real.cos (2 * Real.pi * (0:ℝ) / 10))
            / (1 + Real.sin (2 * Real.pi * (0:ℝ) / 10) / (2 * 0.5))
          + (1 - Real.sin (2 * Real.pi * (0:ℝ) / 10) / (2 * 0.5))
            / (1 + Real.sin (2 * Real.pi * (0:ℝ) / 10) / (2 * 0.5)) = 0 := by
      simp only [hzero, Real.sin_zero, Real.cos_zero, zero_div, add_zero, sub_zero]
      norm_num
    have ht := hcont.tendsto
    rw [hval] at ht
    exact ht.mono_left nhdsWithin_le_nhds
  · intro sr cf k ha0
    have h205 : (2 * 0.5 : ℝ) = 1 := by norm_num
    rw [h205, div_one] at ha0
    constructor
    · simp only [low_pass_coefficients, Frequency.as_f64, SampleRate.as_f64, h205, div_one]
      field_simp [ha0]
      ring
    · simp only [BiquadFilter.process, low_pass_coefficients, Frequency.as_f64,
        SampleRate.as_f64, h205, div_one]
      field_simp [ha0]
      ring

/-- Witness for the amended C6 at sample rate 10, cutoff 0, constant input 5. -/
theorem low_pass_dc_gain_witness :
    ((low_pass_coefficients (SampleRate.mk (Frequency.mk 10)) (Frequency.mk 0)).b0
        + (low_pass_coefficients (SampleRate.mk (Frequency.mk 10)) (Frequency.mk 0)).b1
        + (low_pass_coefficients (SampleRate.mk (Frequency.mk 10)) (Frequency.mk 0)).b2
      = 1 + (low_pass_coefficients (SampleRate.mk (Frequency.mk 10)) (Frequency.mk 0)).a1
        + (low_pass_coefficients (SampleRate.mk (Frequency.mk 10)) (Frequency.mk 0)).a2)
      ∧ (BiquadFilter.process
          { coefficients :=
              low_pass_coefficients (SampleRate.mk (Frequency.mk 10)) (Frequency.mk 0)
            x1 := 5, x2 := 5, y1 := 5, y2 := 5 } 5).1 = 5 :=
  low_pass_dc_gain.2.2 10 0 5
    (by simp [mul_zero, zero_div, Real.sin_zero])

/-- C9 (amended): for nonnegative seconds `s` and an integer sample rate `n`
with `1 ≤ n ≤ u32::MAX` and `s·n` small enough that the saturating `u64`
cast is inert, `to_samples` rounds `s·n` to the nearest whole number of
samples and the `to_samples`/`to_seconds` round trip differs from `s` by at
most half a sample period `1/(2n)`; in particular 3 seconds at 10 Hz is
exactly 30 samples. (For negative seconds the `u64` cast clamps to zero and
the round trip fails; see the counterexample.) -/
theorem seconds_to_samples_round_trip :
    (∀ (s : ℝ) (n : ℕ), 0 ≤ s → 1 ≤ n → n ≤ 2 ^ 32 - 1 → s * n ≤ 2 ^ 64 - 2 →
        |((((Seconds.mk s).to_samples (SampleRate.mk (Frequency.mk n))).val : ℝ)) - s * n|
            ≤ 1 / 2
          ∧ |(((Seconds.mk s).to_samples (SampleRate.mk (Frequency.mk n))).to_seconds
              (SampleRate.mk (Frequency.mk n))).val - s| ≤ 1 / (2 * n))
      ∧ (Seconds.mk 3).to_samples (SampleRate.mk (Frequency.mk 10)) = Samples.mk 30 := by
  constructor
  · intro s n hs hn1 hn hbig
    have hu32 : (SampleRate.mk (Frequency.mk n)).as_u32 = n := by
      simp only [SampleRate.as_u32, SampleRate.as_f64, Frequency.as_f64, f64_as_u32,
        Nat.floor_natCast]
      omega
    have hsn : (0:ℝ) ≤ s * n := by positivity
    have hnpos : (0:ℝ) < n := by exact_mod_cast hn1
    have hmle : (⌊s * (n:ℝ) + 1/2⌋ : ℝ) ≤ s * n + 1/2 := Int.floor_le _
    have hmgt : s * (n:ℝ) + 1/2 - 1 < (⌊s * (n:ℝ) + 1/2⌋ : ℝ) := Int.sub_one_lt_floor _
    have hm0 : 0 ≤ ⌊s * (n:ℝ) + 1/2⌋ := Int.floor_nonneg.mpr (by linarith)
    have hmbound : ⌊s * (n:ℝ) + 1/2⌋ ≤ 2 ^ 64 - 2 := by
      have h2 : ((⌊s * (n:ℝ) + 1/2⌋ : ℤ) : ℝ) < (((2:ℤ) ^ 64 - 1 : ℤ) : ℝ) := by
        push_cast
        linarith
      have h3 : ⌊s * (n:ℝ) + 1/2⌋ < 2 ^ 64 - 1 := by exact_mod_cast h2
      omega
    have hval : ((Seconds.mk s).to_samples (SampleRate.mk (Frequency.mk n))).val
        = (⌊s * (n:ℝ) + 1/2⌋).toNat := by
      simp only [Seconds.to_samples, Seconds.as_f64, hu32, f64_round, if_pos hsn, int_as_u64]
      omega
    have hcast : (((⌊s * (n:ℝ) + 1/2⌋).toNat : ℕ) : ℝ) = (⌊s * (n:ℝ) + 1/2⌋ : ℝ) := by
      exact_mod_cast Int.toNat_of_nonneg hm0
    constructor
    · rw [hval, hcast]
      exact abs_le.mpr ⟨by linarith, by linarith⟩
    · simp only [Samples.to_seconds, Samples.as_u64, SampleRate.value, hval, hcast]
      have heq : (⌊s * (n:ℝ) + 1/2⌋ : ℝ) / n - s
          = ((⌊s * (n:ℝ) + 1/2⌋ : ℝ) - s * n) / n := by
        field_simp
        ring
      rw [heq, abs_div, abs_of_pos hnpos]
      have habs : |(⌊s * (n:ℝ) + 1/2⌋ : ℝ) - s * n| ≤ 1 / 2 :=
        abs_le.mpr ⟨by linarith, by linarith⟩
      calc |(⌊s * (n:ℝ) + 1/2⌋ : ℝ) - s * n| / n ≤ (1 / 2) / n := by gcongr
        _ = 1 / (2 * n) := by rw [div_div]
  · have hfloor : f64_as_u32 ((Frequency.mk 10).as_f64) = 10 := by
      rw [f64_as_u32, Frequency.as_f64]
      norm_num
    simp only [Seconds.to_samples, Seconds.as_f64, SampleRate.as_u32, SampleRate.as_f64,
      hfloor]
    have hround : f64_round ((3:ℝ) * ((10:ℕ):ℝ)) = 30 := by
      rw [f64_round, if_pos (by norm_num)]
      norm_num
    rw [hround]
    rfl

/-- Witness for C9 at 3 seconds and 10 Hz: the round trip is exact. -/
theorem seconds_to_samples_round_trip_witness :
    |((((Seconds.mk 3).to_samples (SampleRate.mk (Frequency.mk 10))).val : ℝ)) - 3 * 10|
        ≤ 1 / 2
      ∧ |(((Seconds.mk 3).to_samples (SampleRate.mk (Frequency.mk 10))).to_seconds
          (SampleRate.mk (Frequency.mk 10))).val - 3| ≤ 1 / (2 * 10) := by
  have h := seconds_to_samples_round_trip.1 3 10 (by norm_num) (by norm_num)
    (by norm_num) (by norm_num)
  exact_mod_cast h

/-- Counterexample for C9 as stated: at `s = −5` seconds and 10 Hz the `as u64`
cast clamps the negative product to zero samples, so the round trip returns 0
and differs from `s` by 5 seconds — far more than half a sample period. -/
theorem seconds_to_samples_round_trip_counterexample :
    (Seconds.mk (-5)).to_samples (SampleRate.mk (Frequency.mk 10)) = Samples.mk 0
      ∧ ¬ |(((Seconds.mk (-5)).to_samples (SampleRate.mk (Frequency.mk 10))).to_seconds
            (SampleRate.mk (Frequency.mk 10))).val - (-5)| ≤ 1 / (2 * 10) := by
  have hfloor : f64_as_u32 ((Frequency.mk 10).as_f64) = 10 := by
    rw [f64_as_u32, Frequency.as_f64]
    norm_num
  have hround : f64_round ((-5:ℝ) * ((10:ℕ):ℝ)) = -50 := by
    rw [f64_round, if_neg (by norm_num)]
    rw [Int.ceil_eq_iff]
    norm_num
  have hsamp : (Seconds.mk (-5)).to_samples (SampleRate.mk (Frequency.mk 10))
      = Samples.mk 0 := by
    simp only [Seconds.to_samples, Seconds.as_f64, SampleRate.as_u32, SampleRate.as_f64,
      hfloor, hround]
    rfl
  refine ⟨hsamp, ?_⟩
  rw [hsamp]
  simp only [Samples.to_seconds, Samples.as_u64, SampleRate.value]
  norm_num

/-- Witness for C10 at a 2-channel, 3-frame buffer and the empty buffer. -/
theorem interleaved_next_total_witness :
    (InterleavedIterator.mk (Buffer.mk [1, 1, 1, 0, 0, 0] 2 3 : Buffer ℤ) 6).next = none
      ∧ (InterleavedIterator.mk (Buffer.mk ([] : List ℤ) 0 3) 0).next = none
      ∧ (∃ v, (InterleavedIterator.mk (Buffer.mk [1, 1, 1, 0, 0, 0] 2 3 : Buffer ℤ) 0).next
          = some (v, ⟨Buffer.mk [1, 1, 1, 0, 0, 0] 2 3, 1⟩))
      ∧ (InterleavedIterator.collect (2 * 3)
          (Buffer.mk [1, 1, 1, 0, 0, 0] 2 3 : Buffer ℤ).iter_interleaved).length = 2 * 3 :=
  ⟨(interleaved_next_total ℤ (Buffer.mk [1, 1, 1, 0, 0, 0] 2 3)).1 6 (by decide),
    (interleaved_next_total ℤ (Buffer.mk [] 0 3)).2.1 (Or.inl rfl) 0,
    (interleaved_next_total ℤ (Buffer.mk [1, 1, 1, 0, 0, 0] 2 3)).2.2.1 rfl 0
      (by decide),
    (interleaved_next_total ℤ (Buffer.mk [1, 1, 1, 0, 0, 0] 2 3)).2.2.2 rfl⟩

end Rabu
